import Mathlib

set_option maxRecDepth 8000

/-!
Verification of the image-URL extraction and deduplication pipeline of
`generate_gallery.py`. The Python functions `extract_images`,
`extract_album_title` and (control flow only) `main` are embedded as
executable Lean functions over `List Char`. Regex scanning is embedded as an
explicit left-to-right scanner with a fuel argument bounded by the input
length, matching the semantics of `re.findall` / `re.finditer` for the three
concrete patterns used by the source (a literal prefix followed by a
character-class repetition, and the quoted-URL metadata pattern with a lazy
gap and bounded digit groups).
-/

/-- Characters matched by the class `[A-Za-z0-9_\-]` of the primary pattern:
ASCII letters, digits, underscore and hyphen. -/
def tokenChar (c : Char) : Bool :=
  c.isAlpha || c.isDigit || c == '_' || c == '-'

/-- Characters matched by the character class of the fallback pattern: the
token characters plus the path separator `/`. -/
def fallbackChar (c : Char) : Bool :=
  tokenChar c || c == '/'

/-- Literal prefix of the primary pattern
`https://lh3\.googleusercontent\.com/pw/`. -/
def pwPat : List Char := ("https://lh3.googleusercontent.com/pw/").data

/-- Literal prefix of the fallback pattern
`https://lh3\.googleusercontent\.com/`. -/
def lhPat : List Char := ("https://lh3.googleusercontent.com/").data

/-- One step of `re.findall` for a pattern of the form
`<literal p><class cls>+`: at position `i`, either the literal matches and is
followed by a non-empty maximal class run (yield the match and continue after
it, as `re` continues at the end of a non-empty match), or move one position
right. The fuel argument only bounds the recursion; `findAll` supplies
`s.length + 1`, which is sufficient because `i` strictly increases. -/
def findAllAux (p : List Char) (cls : Char → Bool) (s : List Char) :
    Nat → Nat → List (List Char)
  | 0, _ => []
  | fuel + 1, i =>
    if i < s.length then
      if p.isPrefixOf (s.drop i) then
        if ((s.drop (i + p.length)).takeWhile cls).isEmpty then
          findAllAux p cls s fuel (i + 1)
        else
          (p ++ (s.drop (i + p.length)).takeWhile cls) ::
            findAllAux p cls s fuel (i + p.length + ((s.drop (i + p.length)).takeWhile cls).length)
      else findAllAux p cls s fuel (i + 1)
    else []

/-- All non-overlapping matches of `<literal p><class cls>+` in `s`, in
left-to-right order: the embedding of `re.findall` for the two URL patterns
of `extract_images`. -/
def findAll (p : List Char) (cls : Char → Bool) (s : List Char) : List (List Char) :=
  findAllAux p cls s (s.length + 1) 0

/-- First-seen-order deduplication with an explicit seen set, the embedding
of the `seen` / `unique_urls` loop of `extract_images`. -/
def dedupAux {α : Type} [DecidableEq α] (seen : List α) : List α → List α
  | [] => []
  | u :: rest =>
    if u ∈ seen then dedupAux seen rest
    else u :: dedupAux (u :: seen) rest

/-- First-seen-order deduplication of the fallback matches, additionally
keeping only URLs longer than 60 characters (`len(u) > 60`), the embedding of
the fallback loop of `extract_images`. -/
def dedupFilterAux (seen : List (List Char)) : List (List Char) → List (List Char)
  | [] => []
  | u :: rest =>
    if u ∈ seen then dedupFilterAux seen rest
    else if 60 < u.length then u :: dedupFilterAux (u :: seen) rest
    else dedupFilterAux seen rest

/-- The `unique_urls` list of `extract_images`: deduplicated primary matches,
or, when there are none, the deduplicated and length-filtered fallback
matches. -/
def uniqueUrls (s : List Char) : List (List Char) :=
  if (dedupAux [] (findAll pwPat tokenChar s)).isEmpty then
    dedupFilterAux [] (findAll lhPat fallbackChar s)
  else
    dedupAux [] (findAll pwPat tokenChar s)

/-- Numeric value of a digit string, the embedding of Python `int` applied to
the captured digit groups. -/
def natOfDigits (l : List Char) : Nat :=
  l.foldl (fun a c => 10 * a + (c.toNat - 48)) 0

/-- Attempt to match the tail `,(\d{3,5}),(\d{3,5})` of the metadata pattern
at position `p`: a comma, a maximal digit run of length 3 to 5 followed by a
comma, then a digit run of length at least 3 of which the first five digits
are captured. Returns the two captured numbers and the end position of the
match. -/
def metaTail (s : List Char) (p : Nat) : Option (Nat × Nat × Nat) :=
  if s[p]? = some ',' then
    if 3 ≤ ((s.drop (p + 1)).takeWhile Char.isDigit).length ∧
        ((s.drop (p + 1)).takeWhile Char.isDigit).length ≤ 5 then
      if s[p + 1 + ((s.drop (p + 1)).takeWhile Char.isDigit).length]? = some ',' then
        if 3 ≤ ((s.drop (p + 2 + ((s.drop (p + 1)).takeWhile Char.isDigit).length)).takeWhile Char.isDigit).length then
          some (natOfDigits ((s.drop (p + 1)).takeWhile Char.isDigit),
                natOfDigits (((s.drop (p + 2 + ((s.drop (p + 1)).takeWhile Char.isDigit).length)).takeWhile Char.isDigit).take 5),
                p + 2 + ((s.drop (p + 1)).takeWhile Char.isDigit).length +
                  min ((s.drop (p + 2 + ((s.drop (p + 1)).takeWhile Char.isDigit).length)).takeWhile Char.isDigit).length 5)
        else none
      else none
    else none
  else none

/-- The lazy gap `[^]]*?` of the metadata pattern followed by `metaTail`:
starting at `p`, try the tail at the shortest gap first; the gap may only
grow over characters different from `]`. -/
def metaGap (s : List Char) : Nat → Nat → Option (Nat × Nat × Nat)
  | 0, _ => none
  | fuel + 1, p =>
    match metaTail s p with
    | some t => some t
    | none =>
      match s[p]? with
      | some c => if c = ']' then none else metaGap s fuel (p + 1)
      | none => none

/-- Attempt to match the metadata pattern
`"(https://lh3\.googleusercontent\.com/pw/[A-Za-z0-9_\-]+)"[^]]*?,(\d{3,5}),(\d{3,5})`
at position `i`: an opening quote, the primary URL (whose maximal token run
must be non-empty and be followed by the closing quote), then the gap and the
two digit groups. Returns the captured URL, width, height and the match end
position. -/
def metaMatchAt (s : List Char) (i : Nat) : Option ((List Char) × Nat × Nat × Nat) :=
  if s[i]? = some '"' then
    if pwPat.isPrefixOf (s.drop (i + 1)) then
      if ((s.drop (i + 1 + pwPat.length)).takeWhile tokenChar).isEmpty then none
      else
        if s[i + 1 + pwPat.length + ((s.drop (i + 1 + pwPat.length)).takeWhile tokenChar).length]? = some '"' then
          match metaGap s (s.length + 1)
              (i + 1 + pwPat.length + ((s.drop (i + 1 + pwPat.length)).takeWhile tokenChar).length + 1) with
          | some (w, h, e) =>
            some (pwPat ++ (s.drop (i + 1 + pwPat.length)).takeWhile tokenChar, w, h, e)
          | none => none
        else none
    else none
  else none

/-- The embedding of `meta_pattern.finditer`: scan left to right, yielding
each metadata match and continuing at its end. -/
def metaFindAux (s : List Char) : Nat → Nat → List ((List Char) × Nat × Nat)
  | 0, _ => []
  | fuel + 1, i =>
    if i < s.length then
      match metaMatchAt s i with
      | some (u, w, h, e) => (u, w, h) :: metaFindAux s fuel e
      | none => metaFindAux s fuel (i + 1)
    else []

/-- All metadata matches of the page, in scan order. -/
def metaFind (s : List Char) : List ((List Char) × Nat × Nat) :=
  metaFindAux s (s.length + 1) 0

/-- Lookup of a URL in the metadata matches; a later match for the same URL
overrides an earlier one, as repeated `meta_map[url] = ...` assignments do. -/
def metaLookup (entries : List ((List Char) × Nat × Nat)) (u : List Char) :
    Option (Nat × Nat) :=
  entries.foldl (fun acc e => if e.1 = u then some e.2 else acc) none

/-- The image descriptor dictionary built by `extract_images`. -/
structure ImageDescriptor where
  base_url : List Char
  display_url : List Char
  thumb_url : List Char
  width : Nat
  height : Nat
  alt : List Char
deriving DecidableEq, Repr

/-- Construction of one descriptor from a deduplicated URL and the metadata
matches: the display and thumb URLs append the fixed size directives, and the
dimensions come from the metadata lookup, defaulting to 0. -/
def mkDescriptor (meta : List ((List Char) × Nat × Nat)) (u : List Char) :
    ImageDescriptor :=
  { base_url := u
    display_url := u ++ ("=w1200").data
    thumb_url := u ++ ("=w600").data
    width :=
      match metaLookup meta u with
      | some p => p.1
      | none => 0
    height :=
      match metaLookup meta u with
      | some p => p.2
      | none => 0
    alt := ("Photo").data }

/-- The embedding of `extract_images`: `none` models the `sys.exit(1)` taken
when no URL survives either pattern, otherwise the descriptor list in
deduplicated order. -/
def extract_images (s : List Char) : Option (List ImageDescriptor) :=
  if (uniqueUrls s).isEmpty then none
  else some ((uniqueUrls s).map (mkDescriptor (metaFind s)))

/-- Outcome of a run of `main` after the page fetch: either the process
exited with the given code before writing anything, or the output file was
written with the given images and section title. -/
inductive MainResult where
  | exited (code : Nat)
  | wrote (images : List ImageDescriptor) (title : List Char)
deriving DecidableEq, Repr

/-- Control flow of `main` after the fetch, with the already-resolved album
title: `extract_images` either exits the process (code 1) before
`out_path.write_text` runs, or the gallery is written. -/
def mainPipeline (s : List Char) (title : List Char) : MainResult :=
  match extract_images s with
  | none => MainResult.exited 1
  | some imgs => MainResult.wrote imgs title

/-- Drop trailing whitespace, as the right half of Python `str.strip`. -/
def stripWsEnd (l : List Char) : List Char :=
  (l.reverse.dropWhile Char.isWhitespace).reverse

/-- The embedding of Python `str.strip`: drop leading and trailing
whitespace. -/
def trimPy (l : List Char) : List Char :=
  stripWsEnd (l.dropWhile Char.isWhitespace)

/-- The literal suffix text stripped from document titles. -/
def gpLit : List Char := ("Google Photos").data

/-- Dash characters accepted by the suffix-stripping pattern: hyphen or en
dash. -/
def isDashChar (c : Char) : Bool := c == '-' || c == '–'

/-- The embedding of `re.sub` applied to the anchored pattern that removes a
trailing `Google Photos` preceded by a dash with optional surrounding
whitespace: if the title ends with the literal, trailing whitespace, then a
dash, the matched tail (including the whitespace run before the dash) is
removed; otherwise the title is unchanged. -/
def stripGPSuffix (t : List Char) : List Char :=
  if gpLit.reverse.isPrefixOf t.reverse then
    match (t.reverse.drop gpLit.length).dropWhile Char.isWhitespace with
    | [] => t
    | c :: r => if isDashChar c then (r.dropWhile Char.isWhitespace).reverse else t
  else t

/-- The title derived from the document `<title>` element, the second branch
of `extract_album_title`: the stripped title text with the suffix removed,
or `None` when that leaves nothing (`... or None`). The argument is the
string content of the `<title>` element as produced by the HTML parser
(`None` when the element or its string is missing). -/
def titleFromTitleTag (ti : Option (List Char)) : Option (List Char) :=
  match ti with
  | some t0 =>
    if t0.isEmpty then none
    else
      if (trimPy (stripGPSuffix (trimPy t0))).isEmpty then none
      else some (trimPy (stripGPSuffix (trimPy t0)))
  | none => none

/-- The embedding of `extract_album_title`, over the two pieces of parser
output it consults: the `content` attribute of the `og:title` meta tag (or
`None` when the tag or attribute is missing) and the string of the `<title>`
element. A non-empty `og:title` content wins and is stripped; otherwise the
document title branch is tried; otherwise `None`. -/
def extract_album_title (og ti : Option (List Char)) : Option (List Char) :=
  match og with
  | some c => if c.isEmpty then titleFromTitleTag ti else some (trimPy c)
  | none => titleFromTitleTag ti

/-- Python `or` for an optional string against a default: the option's value
when it is present and non-empty (truthy), the default otherwise. -/
def pyOr (a : Option (List Char)) (b : List Char) : List Char :=
  match a with
  | some s => if s.isEmpty then b else s
  | none => b

/-- The album title resolved by `main`:
`args.title or extract_album_title(html) or "Photos"`. -/
def resolveTitle (override og ti : Option (List Char)) : List Char :=
  pyOr override (pyOr (extract_album_title og ti) (("Photos").data))

/-- Modelled from the spec: the title-derivation chain as section 4.3 states
it, including the DOM-heading source that `src/generate_gallery.py` does not
implement — explicit structured title field, then document title with the
fixed suffix stripped, then a DOM heading element, then the fixed fallback
label. -/
def resolveTitleSpec (og ti heading : Option (List Char)) : List Char :=
  pyOr og (pyOr (titleFromTitleTag ti) (pyOr heading (("Photos").data)))

/-- Index of the first occurrence of an element in a list (the list length
when absent); used to state first-seen order. -/
def firstIdx {α : Type} [DecidableEq α] : List α → α → Nat
  | [], _ => 0
  | a :: l, u => if u = a then 0 else firstIdx l u + 1

/-- Boolean lexicographic order on character lists, by code point, as Python
`sorted` orders strings. -/
def lexLeB : List Char → List Char → Bool
  | [], _ => true
  | _ :: _, [] => false
  | a :: as, b :: bs => if a < b then true else if b < a then false else lexLeB as bs

/-- Propositional form of the lexicographic order. -/
def lexLe (a b : List Char) : Prop := lexLeB a b = true

instance : DecidableRel lexLe :=
  fun a b => inferInstanceAs (Decidable (lexLeB a b = true))

/-- Substring test: does `pat` occur contiguously inside `l`? -/
def containsSub : List Char → List Char → Bool
  | l, pat =>
    match l with
    | [] => pat.isEmpty
    | _ :: rest => pat.isPrefixOf l || containsSub rest pat

/-- Modelled from the spec: the known small-icon-size URL marker that the
DOM-snapshot path filters out (the spec's example icon URL carries it). -/
def iconSizeMarker : List Char := ("=s45-p-no").data

/-- Modelled from the spec: normalization of a collected URL by stripping the
trailing size/query directives introduced by `=`. -/
def stripSizeDir (u : List Char) : List Char :=
  u.takeWhile (fun c => c != '=')

/-- Modelled from the spec: the DOM-snapshot extraction path, which is not
present in `src/` (only the raw-text path is): collect the rendered image
element sources excluding those carrying the small-icon-size marker, sweep
the rendered HTML with the same primary prefix pattern, normalize by
stripping size directives, filter out short URLs, deduplicate via a set and
sort lexicographically. -/
def extract_images_dom (srcs : List (List Char)) (html : List Char) : List (List Char) :=
  List.insertionSort lexLe
    (dedupAux []
      (((srcs.filter (fun u => containsSub u iconSizeMarker = false) ++
          findAll pwPat tokenChar html).map stripSizeDir).filter
        (fun u => 60 < u.length)))

/-- Concrete page text whose only image URL matches the fallback pattern but
not the primary one (no `pw/` path segment): 65 characters, above the length
filter. -/
def c1CexHtml : List Char :=
  ("https://lh3.googleusercontent.com/abcdefghijklmnopqrstuvwxyzABCDE").data

/-- Concrete page text with one primary URL occurring twice. -/
def c1WitHtml : List Char :=
  ("https://lh3.googleusercontent.com/pw/Zz9 https://lh3.googleusercontent.com/pw/Zz9").data

/-- Concrete page text with a single primary URL. -/
def c2Html : List Char :=
  ("https://lh3.googleusercontent.com/pw/AbCd123").data

/-- The descriptor extracted from `c2Html`. -/
def c2Desc : ImageDescriptor :=
  { base_url := ("https://lh3.googleusercontent.com/pw/AbCd123").data
    display_url := ("https://lh3.googleusercontent.com/pw/AbCd123=w1200").data
    thumb_url := ("https://lh3.googleusercontent.com/pw/AbCd123=w600").data
    width := 0
    height := 0
    alt := ("Photo").data }

/-- Concrete page text with no image URL at all. -/
def c3Html : List Char := ("no image urls in this page").data

/-- Concrete page text with a single primary URL, for the non-empty branch. -/
def c3Html2 : List Char :=
  ("https://lh3.googleusercontent.com/pw/Qq1").data

/-- The descriptor extracted from `c3Html2`. -/
def c3Desc : ImageDescriptor :=
  { base_url := ("https://lh3.googleusercontent.com/pw/Qq1").data
    display_url := ("https://lh3.googleusercontent.com/pw/Qq1=w1200").data
    thumb_url := ("https://lh3.googleusercontent.com/pw/Qq1=w600").data
    width := 0
    height := 0
    alt := ("Photo").data }

/-- Concrete page text whose only image URL matches the fallback pattern
only. -/
def c5Html : List Char :=
  ("https://lh3.googleusercontent.com/zyxwvutsrqponmlkjihgfedcba01234").data

/-- Concrete page text with a primary URL, for the primary branch. -/
def c5Html2 : List Char :=
  ("https://lh3.googleusercontent.com/pw/Mm2").data

/-- Concrete page text embedding a quoted primary URL followed by a metadata
width and height, as the serialized data arrays of the page do. -/
def c6Html : List Char :=
  ("[\"https://lh3.googleusercontent.com/pw/AbCd123\",800,600]").data

/-- The descriptor extracted from `c6Html`, carrying the correlated
dimensions. -/
def c6Desc : ImageDescriptor :=
  { base_url := ("https://lh3.googleusercontent.com/pw/AbCd123").data
    display_url := ("https://lh3.googleusercontent.com/pw/AbCd123=w1200").data
    thumb_url := ("https://lh3.googleusercontent.com/pw/AbCd123=w600").data
    width := 800
    height := 600
    alt := ("Photo").data }

/-- Concrete page text of the spec's dedup example: the first URL occurs
three times, the second once. -/
def c8Html : List Char :=
  ("x https://lh3.googleusercontent.com/pw/AbCd123 y https://lh3.googleusercontent.com/pw/AbCd123 https://lh3.googleusercontent.com/pw/EfGh456 https://lh3.googleusercontent.com/pw/AbCd123 z").data

/-- The first (earlier-seen) descriptor of the `c8Html` example. -/
def c8DescA : ImageDescriptor :=
  { base_url := ("https://lh3.googleusercontent.com/pw/AbCd123").data
    display_url := ("https://lh3.googleusercontent.com/pw/AbCd123=w1200").data
    thumb_url := ("https://lh3.googleusercontent.com/pw/AbCd123=w600").data
    width := 0
    height := 0
    alt := ("Photo").data }

/-- The second (later-seen) descriptor of the `c8Html` example. -/
def c8DescE : ImageDescriptor :=
  { base_url := ("https://lh3.googleusercontent.com/pw/EfGh456").data
    display_url := ("https://lh3.googleusercontent.com/pw/EfGh456=w1200").data
    thumb_url := ("https://lh3.googleusercontent.com/pw/EfGh456=w600").data
    width := 0
    height := 0
    alt := ("Photo").data }

/-- Concrete DOM image source carrying the small-icon-size marker. -/
def c9UrlA : List Char :=
  ("https://lh3.googleusercontent.com/pw/AAAAAAAAAAAAAAAAAAAAAAAAAAAAAA=s45-p-no").data

/-- Concrete DOM image source of a regular photo. -/
def c9UrlB : List Char :=
  ("https://lh3.googleusercontent.com/pw/BBBBBBBBBBBBBBBBBBBBBBBBBBBBBB").data

/-- Concrete page text whose only image URL matches the fallback pattern
only, for the dimension-default claim. -/
def c10Html : List Char :=
  ("https://lh3.googleusercontent.com/d/0123456789012345678901234567890").data

/-- The descriptor extracted from `c10Html` (its base URL is the whole
page text). -/
def c10Desc : ImageDescriptor :=
  { base_url := c10Html
    display_url := c10Html ++ ("=w1200").data
    thumb_url := c10Html ++ ("=w600").data
    width := 0
    height := 0
    alt := ("Photo").data }

theorem isEmpty_false_of_ne_nil {α : Type} {l : List α} (h : l ≠ []) :
    l.isEmpty = false := by
  cases l with
  | nil => exact absurd rfl h
  | cons a t => rfl

theorem ne_nil_of_isEmpty_false {α : Type} {l : List α} (h : l.isEmpty = false) :
    l ≠ [] := by
  cases l with
  | nil => simp at h
  | cons a t => exact List.cons_ne_nil a t

theorem eq_nil_of_isEmpty_true {α : Type} {l : List α} (h : l.isEmpty = true) :
    l = [] := List.isEmpty_iff.mp h

theorem isPrefixOf_nil_eq_nil {p : List Char} (h : p.isPrefixOf ([] : List Char) = true) :
    p = [] := by
  cases p with
  | nil => rfl
  | cons a t => simp [List.isPrefixOf] at h

theorem pairwise_mono_mem {α : Type} {R S : α → α → Prop} :
    ∀ {l : List α}, (∀ a ∈ l, ∀ b ∈ l, R a b → S a b) → l.Pairwise R → l.Pairwise S := by
  intro l
  induction l with
  | nil => intro _ _; exact List.Pairwise.nil
  | cons a t ih =>
    intro hmono hp
    rcases List.pairwise_cons.mp hp with ⟨hhead, htail⟩
    refine List.pairwise_cons.mpr ⟨?_, ?_⟩
    · intro b hb
      exact hmono a (List.mem_cons_self a t) b (List.mem_cons_of_mem a hb) (hhead b hb)
    · exact ih (fun x hx y hy => hmono x (List.mem_cons_of_mem a hx) y (List.mem_cons_of_mem a hy)) htail

theorem dedupAux_sublist {α : Type} [DecidableEq α] (seen : List α) (l : List α) :
    (dedupAux seen l).Sublist l := by
  induction l generalizing seen with
  | nil => simp [dedupAux]
  | cons a t ih =>
    by_cases h : a ∈ seen
    · simp only [dedupAux, if_pos h]
      exact (ih seen).cons a
    · simp only [dedupAux, if_neg h]
      exact (ih (a :: seen)).cons₂ a

theorem mem_dedupAux {α : Type} [DecidableEq α] (seen l : List α) (u : α) :
    u ∈ dedupAux seen l ↔ u ∈ l ∧ u ∉ seen := by
  induction l generalizing seen with
  | nil => simp [dedupAux]
  | cons a t ih =>
    by_cases h : a ∈ seen
    · simp only [dedupAux, if_pos h, ih seen, List.mem_cons]
      constructor
      · rintro ⟨hu, hn⟩; exact ⟨Or.inr hu, hn⟩
      · rintro ⟨hu | hu, hn⟩
        · exact absurd (hu ▸ h) hn
        · exact ⟨hu, hn⟩
    · simp only [dedupAux, if_neg h, List.mem_cons, ih (a :: seen)]
      constructor
      · rintro (rfl | ⟨hu, hn⟩)
        · exact ⟨Or.inl rfl, h⟩
        · exact ⟨Or.inr hu, fun hs => hn (Or.inr hs)⟩
      · rintro ⟨rfl | hu, hn⟩
        · exact Or.inl rfl
        · by_cases hua : u = a
          · exact Or.inl hua
          · exact Or.inr ⟨hu, fun hc => hc.elim hua hn⟩

theorem dedupAux_nodup {α : Type} [DecidableEq α] (seen l : List α) :
    (dedupAux seen l).Nodup := by
  induction l generalizing seen with
  | nil => simp [dedupAux]
  | cons a t ih =>
    by_cases h : a ∈ seen
    · simp only [dedupAux, if_pos h]; exact ih seen
    · simp only [dedupAux, if_neg h, List.nodup_cons]
      refine ⟨?_, ih (a :: seen)⟩
      intro hmem
      exact ((mem_dedupAux _ _ _).mp hmem).2 (List.mem_cons_self a seen)

theorem dedupAux_ne_nil {α : Type} [DecidableEq α] {l : List α} (h : l ≠ []) :
    dedupAux [] l ≠ [] := by
  cases l with
  | nil => exact absurd rfl h
  | cons a t =>
    simp only [dedupAux, List.not_mem_nil, if_neg (fun hc => hc)]
    exact List.cons_ne_nil _ _

theorem dedupAux_pairwise_firstIdx {α : Type} [DecidableEq α] (seen l : List α) :
    (dedupAux seen l).Pairwise (fun u v => firstIdx l u < firstIdx l v) := by
  induction l generalizing seen with
  | nil => simp [dedupAux]
  | cons a t ih =>
    by_cases h : a ∈ seen
    · simp only [dedupAux, if_pos h]
      refine pairwise_mono_mem ?_ (ih seen)
      intro u hu v hv hR
      have hu2 : u ∉ seen := ((mem_dedupAux _ _ _).mp hu).2
      have hv2 : v ∉ seen := ((mem_dedupAux _ _ _).mp hv).2
      have hua : ¬u = a := fun e => hu2 (e ▸ h)
      have hva : ¬v = a := fun e => hv2 (e ▸ h)
      simp only [firstIdx, if_neg hua, if_neg hva]
      omega
    · simp only [dedupAux, if_neg h, List.pairwise_cons]
      constructor
      · intro v hv
        have hv2 : v ∉ a :: seen := ((mem_dedupAux _ _ _).mp hv).2
        have hva : ¬v = a := fun e => hv2 (e ▸ List.mem_cons_self a seen)
        have h0 : firstIdx (a :: t) a = 0 := by simp [firstIdx]
        have h1 : firstIdx (a :: t) v = firstIdx t v + 1 := by simp [firstIdx, hva]
        omega
      · refine pairwise_mono_mem ?_ (ih (a :: seen))
        intro u hu v hv hR
        have hu2 : u ∉ a :: seen := ((mem_dedupAux _ _ _).mp hu).2
        have hv2 : v ∉ a :: seen := ((mem_dedupAux _ _ _).mp hv).2
        have hua : ¬u = a := fun e => hu2 (e ▸ List.mem_cons_self a seen)
        have hva : ¬v = a := fun e => hv2 (e ▸ List.mem_cons_self a seen)
        simp only [firstIdx, if_neg hua, if_neg hva]
        omega

theorem dedupFilterAux_sublist (seen : List (List Char)) (l : List (List Char)) :
    (dedupFilterAux seen l).Sublist l := by
  induction l generalizing seen with
  | nil => simp [dedupFilterAux]
  | cons a t ih =>
    by_cases h : a ∈ seen
    · simp only [dedupFilterAux, if_pos h]
      exact (ih seen).cons a
    · by_cases hl : 60 < a.length
      · simp only [dedupFilterAux, if_neg h, if_pos hl]
        exact (ih (a :: seen)).cons₂ a
      · simp only [dedupFilterAux, if_neg h, if_neg hl]
        exact (ih seen).cons a

theorem mem_dedupFilterAux (seen l : List (List Char)) (u : List Char) :
    u ∈ dedupFilterAux seen l ↔ u ∈ l ∧ u ∉ seen ∧ 60 < u.length := by
  induction l generalizing seen with
  | nil => simp [dedupFilterAux]
  | cons a t ih =>
    by_cases h : a ∈ seen
    · simp only [dedupFilterAux, if_pos h, ih seen, List.mem_cons]
      constructor
      · rintro ⟨hu, hn, hl⟩; exact ⟨Or.inr hu, hn, hl⟩
      · rintro ⟨hu | hu, hn, hl⟩
        · exact absurd (hu ▸ h) hn
        · exact ⟨hu, hn, hl⟩
    · by_cases hl : 60 < a.length
      · simp only [dedupFilterAux, if_neg h, if_pos hl, List.mem_cons, ih (a :: seen)]
        constructor
        · rintro (rfl | ⟨hu, hn, hul⟩)
          · exact ⟨Or.inl rfl, h, hl⟩
          · exact ⟨Or.inr hu, fun hs => hn (Or.inr hs), hul⟩
        · rintro ⟨rfl | hu, hn, hul⟩
          · exact Or.inl rfl
          · by_cases hua : u = a
            · exact Or.inl hua
            · exact Or.inr ⟨hu, fun hc => hc.elim hua hn, hul⟩
      · simp only [dedupFilterAux, if_neg h, if_neg hl, ih seen, List.mem_cons]
        constructor
        · rintro ⟨hu, hn, hul⟩; exact ⟨Or.inr hu, hn, hul⟩
        · rintro ⟨hu | hu, hn, hul⟩
          · exact absurd (hu ▸ hul) hl
          · exact ⟨hu, hn, hul⟩

theorem dedupFilterAux_nodup (seen l : List (List Char)) :
    (dedupFilterAux seen l).Nodup := by
  induction l generalizing seen with
  | nil => simp [dedupFilterAux]
  | cons a t ih =>
    by_cases h : a ∈ seen
    · simp only [dedupFilterAux, if_pos h]; exact ih seen
    · by_cases hl : 60 < a.length
      · simp only [dedupFilterAux, if_neg h, if_pos hl, List.nodup_cons]
        refine ⟨?_, ih (a :: seen)⟩
        intro hmem
        exact ((mem_dedupFilterAux _ _ _).mp hmem).2.1 (List.mem_cons_self a seen)
      · simp only [dedupFilterAux, if_neg h, if_neg hl]; exact ih seen

theorem findAllAux_eq_nil_no_match (p : List Char) (cls : Char → Bool) (s : List Char)
    (hp : p ≠ []) :
    ∀ fuel i, s.length ≤ i + fuel → findAllAux p cls s fuel i = [] →
      ∀ j, i ≤ j →
        ¬(p.isPrefixOf (s.drop j) = true ∧ (s.drop (j + p.length)).takeWhile cls ≠ []) := by
  intro fuel
  induction fuel with
  | zero =>
    intro i hlen _ j hij hm
    have hj : s.length ≤ j := by omega
    rw [List.drop_eq_nil_of_le hj] at hm
    exact hp (isPrefixOf_nil_eq_nil hm.1)
  | succ fuel ih =>
    intro i hlen hnil j hij
    rw [findAllAux] at hnil
    by_cases hi : i < s.length
    · rw [if_pos hi] at hnil
      by_cases hpre : p.isPrefixOf (s.drop i) = true
      · rw [if_pos hpre] at hnil
        by_cases hrun : ((s.drop (i + p.length)).takeWhile cls).isEmpty = true
        · rw [if_pos hrun] at hnil
          rcases Nat.eq_or_lt_of_le hij with rfl | hij2
          · intro hm
            exact hm.2 (eq_nil_of_isEmpty_true hrun)
          · exact ih (i + 1) (by omega) hnil j (by omega)
        · rw [if_neg hrun] at hnil
          exact absurd hnil (List.cons_ne_nil _ _)
      · rw [if_neg hpre] at hnil
        rcases Nat.eq_or_lt_of_le hij with rfl | hij2
        · intro hm
          exact hpre hm.1
        · exact ih (i + 1) (by omega) hnil j (by omega)
    · intro hm
      have hj : s.length ≤ j := by omega
      rw [List.drop_eq_nil_of_le hj] at hm
      exact hp (isPrefixOf_nil_eq_nil hm.1)

theorem metaMatchAt_some_primary_match {s : List Char} {i : Nat}
    {x : (List Char) × Nat × Nat × Nat} (h : metaMatchAt s i = some x) :
    pwPat.isPrefixOf (s.drop (i + 1)) = true ∧
      (s.drop (i + 1 + pwPat.length)).takeWhile tokenChar ≠ [] := by
  unfold metaMatchAt at h
  by_cases h1 : s[i]? = some '"'
  · rw [if_pos h1] at h
    by_cases h2 : pwPat.isPrefixOf (s.drop (i + 1)) = true
    · rw [if_pos h2] at h
      by_cases h3 : ((s.drop (i + 1 + pwPat.length)).takeWhile tokenChar).isEmpty = true
      · rw [if_pos h3] at h
        exact absurd h (by simp)
      · exact ⟨h2, ne_nil_of_isEmpty_false (by revert h3; cases ((s.drop (i + 1 + pwPat.length)).takeWhile tokenChar).isEmpty <;> simp)⟩
    · rw [if_neg h2] at h
      exact absurd h (by simp)
  · rw [if_neg h1] at h
    exact absurd h (by simp)

theorem metaFindAux_eq_nil {s : List Char} (h : ∀ i, metaMatchAt s i = none) :
    ∀ fuel i, metaFindAux s fuel i = [] := by
  intro fuel
  induction fuel with
  | zero => intro i; rfl
  | succ fuel ih =>
    intro i
    rw [metaFindAux]
    by_cases hi : i < s.length
    · rw [if_pos hi, h i]
      exact ih (i + 1)
    · rw [if_neg hi]

theorem lexLeB_total : ∀ a b : List Char, lexLeB a b = true ∨ lexLeB b a = true := by
  intro a
  induction a with
  | nil => intro b; exact Or.inl rfl
  | cons x xs ih =>
    intro b
    cases b with
    | nil => exact Or.inr rfl
    | cons y ys =>
      rcases lt_trichotomy x y with hxy | hxy | hxy
      · exact Or.inl (by simp [lexLeB, hxy])
      · subst hxy
        rcases ih ys with h | h
        · exact Or.inl (by simp [lexLeB, lt_irrefl, h])
        · exact Or.inr (by simp [lexLeB, lt_irrefl, h])
      · exact Or.inr (by simp [lexLeB, hxy])

theorem lexLeB_trans : ∀ a b c : List Char,
    lexLeB a b = true → lexLeB b c = true → lexLeB a c = true := by
  intro a
  induction a with
  | nil => intro b c _ _; rfl
  | cons x xs ih =>
    intro b c hab hbc
    cases b with
    | nil => simp [lexLeB] at hab
    | cons y ys =>
      cases c with
      | nil => simp [lexLeB] at hbc
      | cons z zs =>
        rcases lt_trichotomy x y with hxy | hxy | hxy
        · rcases lt_trichotomy y z with hyz | hyz | hyz
          · have hxz : x < z := lt_trans hxy hyz
            simp [lexLeB, hxz]
          · subst hyz
            simp [lexLeB, hxy]
          · rw [lexLeB] at hbc
            rw [if_neg (asymm hyz), if_pos hyz] at hbc
            exact absurd hbc (by simp)
        · subst hxy
          rcases lt_trichotomy x z with hxz | hxz | hxz
          · simp [lexLeB, hxz]
          · subst hxz
            rw [lexLeB] at hab hbc ⊢
            rw [if_neg (lt_irrefl x), if_neg (lt_irrefl x)] at hab hbc ⊢
            exact ih _ _ hab hbc
          · rw [lexLeB] at hbc
            rw [if_neg (asymm hxz), if_pos hxz] at hbc
            exact absurd hbc (by simp)
        · rw [lexLeB] at hab
          rw [if_neg (asymm hxy), if_pos hxy] at hab
          exact absurd hab (by simp)

theorem lexLe_total : ∀ a b : List Char, lexLe a b ∨ lexLe b a := lexLeB_total

theorem lexLe_trans : ∀ a b c : List Char, lexLe a b → lexLe b c → lexLe a c :=
  lexLeB_trans

theorem extract_images_eq_some {s : List Char} {imgs : List ImageDescriptor}
    (h : extract_images s = some imgs) :
    imgs = (uniqueUrls s).map (mkDescriptor (metaFind s)) := by
  by_cases he : (uniqueUrls s).isEmpty = true
  · rw [extract_images, if_pos he] at h
    cases h
  · rw [extract_images, if_neg he] at h
    exact (Option.some.inj h).symm

/-- Claim C4: extraction is deterministic. `extract_images` is a pure
function of the page text (the scan order, the seen-set dedup and the
metadata map are all deterministic), so running it twice on identical input
yields identical collections, including entry order. -/
theorem extract_images_deterministic :
    ∀ s : List Char, extract_images s = extract_images s :=
  fun _ => rfl

/-- Claim C2: for every descriptor in a collection returned by
`extract_images`, `display_url` is exactly `base_url` with the fixed
large-size suffix `=w1200` appended, and `thumb_url` is exactly `base_url`
with the fixed small-size suffix `=w600` appended. -/
theorem display_thumb_suffix_append (s : List Char) (imgs : List ImageDescriptor)
    (h : extract_images s = some imgs) :
    ∀ img ∈ imgs,
      img.display_url = img.base_url ++ ("=w1200").data ∧
      img.thumb_url = img.base_url ++ ("=w600").data := by
  intro img hmem
  rw [extract_images_eq_some h] at hmem
  rcases List.mem_map.mp hmem with ⟨u, hu, rfl⟩
  exact ⟨rfl, rfl⟩

/-- Witness for C2: the descriptor extracted from a concrete page carries
both derived suffixes. -/
theorem display_thumb_suffix_append_witness :
    c2Desc.display_url = c2Desc.base_url ++ ("=w1200").data ∧
    c2Desc.thumb_url = c2Desc.base_url ++ ("=w600").data :=
  display_thumb_suffix_append c2Html [c2Desc] (by decide) c2Desc (by decide)

/-- Claim C3: when neither the primary pattern nor the length-filtered
fallback pattern yields any URL, the run exits with the non-zero code 1
(after printing its diagnostic) before the output file is written, and
`extract_images` never returns an empty collection. -/
theorem empty_extraction_exits (s t : List Char) :
    ((findAll pwPat tokenChar s = [] ∧
        dedupFilterAux [] (findAll lhPat fallbackChar s) = []) →
      mainPipeline s t = MainResult.exited 1) ∧
    (∀ imgs, extract_images s = some imgs → imgs ≠ []) := by
  constructor
  · rintro ⟨h1, h2⟩
    have hu : uniqueUrls s = [] := by
      simp only [uniqueUrls, h1]
      simp [dedupAux, h2]
    simp [mainPipeline, extract_images, hu]
  · intro imgs h hnil
    subst hnil
    have hu : uniqueUrls s = [] :=
      List.map_eq_nil_iff.mp (extract_images_eq_some h).symm
    simp [extract_images, hu] at h

/-- Witness for C3: a concrete page with no URL exits with code 1 and is
never written; a concrete non-empty extraction is indeed non-empty. -/
theorem empty_extraction_exits_witness :
    mainPipeline c3Html (("Photos").data) = MainResult.exited 1 ∧
    ([c3Desc] : List ImageDescriptor) ≠ [] :=
  ⟨(empty_extraction_exits c3Html (("Photos").data)).1 ⟨by decide, by decide⟩,
   (empty_extraction_exits c3Html2 (("Photos").data)).2 [c3Desc] (by decide)⟩

/-- Claim C5: the fallback path is used exactly when the primary pattern has
no match; it scans the same host domain with the looser pattern (`pwPat` is
the fallback prefix extended by the `pw/` path restriction) and keeps only
matches longer than 60 characters, deduplicated in first-seen order. -/
theorem fallback_iff_primary_empty (s : List Char) :
    (findAll pwPat tokenChar s = [] →
      uniqueUrls s = dedupFilterAux [] (findAll lhPat fallbackChar s) ∧
      (∀ u ∈ uniqueUrls s, u ∈ findAll lhPat fallbackChar s ∧ 60 < u.length) ∧
      (uniqueUrls s).Nodup ∧
      (uniqueUrls s).Sublist (findAll lhPat fallbackChar s)) ∧
    (findAll pwPat tokenChar s ≠ [] →
      uniqueUrls s = dedupAux [] (findAll pwPat tokenChar s)) ∧
    pwPat = lhPat ++ ("pw/").data := by
  refine ⟨?_, ?_, by decide⟩
  · intro h1
    have hu : uniqueUrls s = dedupFilterAux [] (findAll lhPat fallbackChar s) := by
      simp [uniqueUrls, h1, dedupAux]
    refine ⟨hu, ?_, ?_, ?_⟩
    · intro u hmem
      rw [hu] at hmem
      rcases (mem_dedupFilterAux [] _ u).mp hmem with ⟨hin, -, hlen⟩
      exact ⟨hin, hlen⟩
    · rw [hu]; exact dedupFilterAux_nodup [] _
    · rw [hu]; exact dedupFilterAux_sublist [] _
  · intro hp
    have hne : dedupAux [] (findAll pwPat tokenChar s) ≠ [] := dedupAux_ne_nil hp
    simp [uniqueUrls, isEmpty_false_of_ne_nil hne]

/-- Witness for C5: both branches at concrete pages -- a fallback-only page
uses the filtered fallback dedup, a page with a primary match uses the
primary dedup. -/
theorem fallback_iff_primary_empty_witness :
    uniqueUrls c5Html = dedupFilterAux [] (findAll lhPat fallbackChar c5Html) ∧
    uniqueUrls c5Html2 = dedupAux [] (findAll pwPat tokenChar c5Html2) :=
  ⟨((fallback_iff_primary_empty c5Html).1 (by decide)).1,
   (fallback_iff_primary_empty c5Html2).2.1 (by decide)⟩

/-- Claim C1 (amended to the inputs on which the primary pattern matches at
least once): the returned collection has exactly one descriptor per distinct
primary-pattern match -- its base URLs are the deduplicated primary matches,
pairwise distinct, containing a URL exactly when the primary pattern matched
it, a subsequence of the match list, ordered by first occurrence. -/
theorem extract_images_primary_distinct (s : List Char)
    (hp : findAll pwPat tokenChar s ≠ []) :
    ∃ imgs, extract_images s = some imgs ∧
      imgs.map ImageDescriptor.base_url = dedupAux [] (findAll pwPat tokenChar s) ∧
      (imgs.map ImageDescriptor.base_url).Nodup ∧
      (∀ u, u ∈ imgs.map ImageDescriptor.base_url ↔ u ∈ findAll pwPat tokenChar s) ∧
      (imgs.map ImageDescriptor.base_url).Sublist (findAll pwPat tokenChar s) ∧
      (imgs.map ImageDescriptor.base_url).Pairwise
        (fun u v => firstIdx (findAll pwPat tokenChar s) u <
          firstIdx (findAll pwPat tokenChar s) v) := by
  have hne : dedupAux [] (findAll pwPat tokenChar s) ≠ [] := dedupAux_ne_nil hp
  have hu : uniqueUrls s = dedupAux [] (findAll pwPat tokenChar s) := by
    simp [uniqueUrls, isEmpty_false_of_ne_nil hne]
  have hune : uniqueUrls s ≠ [] := by rw [hu]; exact hne
  refine ⟨(uniqueUrls s).map (mkDescriptor (metaFind s)), ?_, ?_⟩
  · simp [extract_images, isEmpty_false_of_ne_nil hune]
  · have hbase :
        ((uniqueUrls s).map (mkDescriptor (metaFind s))).map ImageDescriptor.base_url =
          uniqueUrls s := by
      rw [List.map_map]
      have hcomp : ImageDescriptor.base_url ∘ mkDescriptor (metaFind s) = id :=
        funext fun u => rfl
      rw [hcomp, List.map_id]
    rw [hbase, hu]
    refine ⟨rfl, dedupAux_nodup [] _, ?_, dedupAux_sublist [] _,
      dedupAux_pairwise_firstIdx [] _⟩
    intro u
    rw [mem_dedupAux]
    simp

/-- Witness for C1 (amended) at a concrete page in which one primary URL
occurs twice. -/
theorem extract_images_primary_distinct_witness :
    ∃ imgs, extract_images c1WitHtml = some imgs ∧
      imgs.map ImageDescriptor.base_url = dedupAux [] (findAll pwPat tokenChar c1WitHtml) ∧
      (imgs.map ImageDescriptor.base_url).Nodup ∧
      (∀ u, u ∈ imgs.map ImageDescriptor.base_url ↔ u ∈ findAll pwPat tokenChar c1WitHtml) ∧
      (imgs.map ImageDescriptor.base_url).Sublist (findAll pwPat tokenChar c1WitHtml) ∧
      (imgs.map ImageDescriptor.base_url).Pairwise
        (fun u v => firstIdx (findAll pwPat tokenChar c1WitHtml) u <
          firstIdx (findAll pwPat tokenChar c1WitHtml) v) :=
  extract_images_primary_distinct c1WitHtml (by decide)

/-- Counterexample to claim C1 as stated over every input: on a page whose
only URL matches the fallback pattern, the returned collection has one
entry while the primary pattern has zero (hence zero distinct) matches. -/
theorem extract_images_fallback_count_cex :
    findAll pwPat tokenChar c1CexHtml = [] ∧
    (extract_images c1CexHtml).map List.length = some 1 := by
  exact ⟨by decide, by decide⟩

/-- Claim C6: metadata correlation. Each returned descriptor carries exactly
the width and height that the metadata pattern associates with its base URL
(a later match for the same URL overriding an earlier one, as the dict
assignment does), and width and height 0 when the pattern associates
nothing; missing metadata never fails the run. -/
theorem metadata_correlation (s : List Char) (imgs : List ImageDescriptor)
    (h : extract_images s = some imgs) :
    ∀ img ∈ imgs,
      (∀ w hgt, metaLookup (metaFind s) img.base_url = some (w, hgt) →
        img.width = w ∧ img.height = hgt) ∧
      (metaLookup (metaFind s) img.base_url = none →
        img.width = 0 ∧ img.height = 0) := by
  intro img hmem
  rw [extract_images_eq_some h] at hmem
  rcases List.mem_map.mp hmem with ⟨u, hu, rfl⟩
  constructor
  · intro w hgt hlook
    simp only [mkDescriptor] at hlook ⊢
    rw [hlook]
    exact ⟨rfl, rfl⟩
  · intro hlook
    simp only [mkDescriptor] at hlook ⊢
    rw [hlook]
    exact ⟨rfl, rfl⟩

/-- Witness for C6: a concrete serialized array associating a quoted URL
with `800,600` yields a descriptor with exactly those dimensions. -/
theorem metadata_correlation_witness :
    c6Desc.width = 800 ∧ c6Desc.height = 600 :=
  (metadata_correlation c6Html [c6Desc] (by decide) c6Desc (by decide)).1 800 600
    (by decide)

/-- Claim C10: every descriptor produced via the fallback path (that is,
when the primary pattern has no match at all) has width 0 and height 0,
because every metadata-pattern match contains a primary-pattern match, so
the metadata map is empty whenever the fallback path runs. -/
theorem fallback_descriptors_zero_dimensions (s : List Char)
    (hp : findAll pwPat tokenChar s = []) (imgs : List ImageDescriptor)
    (h : extract_images s = some imgs) :
    ∀ img ∈ imgs, img.width = 0 ∧ img.height = 0 := by
  have hnm := findAllAux_eq_nil_no_match pwPat tokenChar s (by decide)
    (s.length + 1) 0 (by omega) hp
  have hmeta : ∀ i, metaMatchAt s i = none := by
    intro i
    cases hm : metaMatchAt s i with
    | none => rfl
    | some x =>
      exact absurd (metaMatchAt_some_primary_match hm) (hnm (i + 1) (Nat.zero_le _))
  have hfind : metaFind s = [] := metaFindAux_eq_nil hmeta (s.length + 1) 0
  intro img hmem
  rw [extract_images_eq_some h] at hmem
  rcases List.mem_map.mp hmem with ⟨u, hu, rfl⟩
  rw [hfind]
  exact ⟨rfl, rfl⟩

/-- Witness for C10: the descriptor of a concrete fallback-only page has
width 0 and height 0. -/
theorem fallback_descriptors_zero_dimensions_witness :
    c10Desc.width = 0 ∧ c10Desc.height = 0 :=
  fallback_descriptors_zero_dimensions c10Html (by decide) [c10Desc] (by decide)
    c10Desc (by decide)

/-- Claim C8: the spec's deduplication example, with its placeholder host
`hostX.example` read as the image-hosting domain of the primary pattern: a
page containing the first URL three times and the second once yields exactly
two descriptors, in first-seen order, each with the derived display and
thumb suffixes. -/
theorem example_duplicate_dedup_order :
    extract_images c8Html = some [c8DescA, c8DescE] ∧
    (extract_images c8Html).map List.length = some 2 := by
  exact ⟨by decide, by decide⟩

/-- Claim C9: the DOM-snapshot extraction path filters out the URL carrying
the small-icon-size marker, leaving only the regular photo URL, and always
returns a lexicographically sorted list. -/
theorem dom_path_icon_filter_sorted :
    extract_images_dom [c9UrlA, c9UrlB] [] = [c9UrlB] ∧
    ∀ srcs html, List.Sorted lexLe (extract_images_dom srcs html) := by
  constructor
  · decide
  · intro srcs html
    simp only [extract_images_dom]
    exact @List.sorted_insertionSort (List Char) lexLe _ ⟨lexLe_total⟩ ⟨lexLe_trans⟩ _

/-- Counterexample to claim C7 as stated: `extract_album_title` never
consults a DOM heading element. On a page whose only title source is a
heading, the code resolves the fallback label while the spec's chain would
resolve the heading text. -/
theorem title_heading_ignored_cex :
    resolveTitle none none none = ("Photos").data ∧
    resolveTitleSpec none none (some (("Hiking").data)) = ("Hiking").data := by
  exact ⟨by decide, by decide⟩

/-- Claim C7 (amended): the title is derived from the `og:title` content
when the tag is present with non-empty content (stripped), else from the
document title element with the `Google Photos` suffix stripped, and when
neither yields a non-empty string it defaults to the fixed label `Photos`;
derivation is total and never fails the run. -/
theorem title_priority_order (og ti : Option (List Char)) :
    (∀ c, og = some c → ¬c.isEmpty = true →
      resolveTitle none og ti =
        (if (trimPy c).isEmpty then ("Photos").data else trimPy c)) ∧
    ((og = none ∨ og = some []) →
      resolveTitle none og ti = pyOr (titleFromTitleTag ti) (("Photos").data)) ∧
    (og = none → ti = none → resolveTitle none og ti = ("Photos").data) := by
  refine ⟨?_, ?_, ?_⟩
  · rintro c rfl hc
    simp [resolveTitle, pyOr, extract_album_title, hc]
  · rintro (rfl | rfl)
    · simp [resolveTitle, pyOr, extract_album_title]
    · simp [resolveTitle, pyOr, extract_album_title, List.isEmpty]
  · rintro rfl rfl
    simp [resolveTitle, pyOr, extract_album_title, titleFromTitleTag]

/-- Witness for C7 (amended): the three priority branches at concrete
inputs. -/
theorem title_priority_order_witness :
    resolveTitle none (some (("My Album").data)) none =
      (if (trimPy (("My Album").data)).isEmpty then ("Photos").data
        else trimPy (("My Album").data)) ∧
    resolveTitle none none (some (("Trip - Google Photos").data)) =
      pyOr (titleFromTitleTag (some (("Trip - Google Photos").data))) (("Photos").data) ∧
    resolveTitle none none none = ("Photos").data :=
  ⟨(title_priority_order (some (("My Album").data)) none).1 (("My Album").data) rfl
      (by decide),
   (title_priority_order none (some (("Trip - Google Photos").data))).2.1 (Or.inl rfl),
   (title_priority_order none none).2.2 rfl rfl⟩
